import Mathlib

/-!
Verification of the racer core model engine: a shallow embedding of the
path-algebra utilities (`util.js`), the scoped-path methods of
`lib/Model/paths.js`, and the value-copy / lookup / async-group helpers,
with theorems settling the specification claims about them.
-/

namespace Racer

/-- A path segment is a string or a (non-negative integer) number, following
the `PathSegment` typedef (`string | number`) of util.js; valid numeric
segments are non-negative integers. -/
inductive PathSegment
  | str (s : String)
  | num (n : Nat)
deriving DecidableEq, Repr

/-- Embedding of `isArrayIndex(segment)`: whether the string matches the
regular expression `^[0-9]+$` (non-empty, every character a decimal digit). -/
def isArrayIndex (s : String) : Bool :=
  !s.data.isEmpty && s.data.all Char.isDigit

/-- The numeric value JavaScript assigns to a digit-only string: the decimal
number denoted by its digits (`+segment` / `Number(segment)`). -/
def parseNat (s : String) : Nat :=
  s.data.foldl (fun a c => a * 10 + (c.toNat - 48)) 0

/-- One step of `castSegments`: a string segment of digits is cast to a
number (`segments[i] = +segment`), anything else is left as it is.  The
`typeof segment === 'string'` guard means number segments are untouched. -/
def castSegment (segment : PathSegment) : PathSegment :=
  match segment with
  | .str s => if isArrayIndex s then .num (parseNat s) else .str s
  | .num n => .num n

/-- Embedding of `castSegments(segments)`: the loop walks every index and
replaces digit-only string segments by their numeric value in place, which
as a pure function is a pointwise map of `castSegment`. -/
def castSegments (segments : List PathSegment) : List PathSegment :=
  segments.map castSegment

/-- The decimal string JavaScript produces for a non-negative integer
(`'' + n` / `n.toString()`): its base-10 digits, most significant first,
with `"0"` for zero. -/
def numToString (n : Nat) : String :=
  if n = 0 then "0"
  else String.mk ((Nat.digits 10 n).reverse.map (fun d => Char.ofNat (48 + d)))

/-- JavaScript stringification of a path segment: strings are unchanged,
numbers print in decimal (`segment.toString()`). -/
def segToString (segment : PathSegment) : String :=
  match segment with
  | .str s => s
  | .num n => numToString n

/-- Spec-side statement of "s matches `[0-9]+`": non-empty and every
character is between `'0'` and `'9'`. -/
def jsDigitString (s : String) : Prop :=
  s.data ≠ [] ∧ ∀ c ∈ s.data, 48 ≤ c.toNat ∧ c.toNat ≤ 57

instance (s : String) : Decidable (jsDigitString s) := by
  unfold jsDigitString; infer_instance

/-- Spec-side statement of `Number(s)` for a digit string: the value of its
decimal digits, via Mathlib's `Nat.ofDigits` (least significant first). -/
def specNumber (s : String) : Nat :=
  Nat.ofDigits 10 ((s.data.map (fun c => c.toNat - 48)).reverse)

/-! Lemmas about digits, parsing and printing. -/

theorem isArrayIndex_iff (s : String) : isArrayIndex s = true ↔ jsDigitString s := by
  unfold isArrayIndex jsDigitString
  rw [Bool.and_eq_true, List.all_eq_true]
  constructor
  · rintro ⟨h1, h2⟩
    refine ⟨?_, fun c hc => ?_⟩
    · simp only [Bool.not_eq_true', List.isEmpty_eq_false_iff_exists_mem] at h1
      rcases h1 with ⟨x, hx⟩
      intro hnil; rw [hnil] at hx; exact absurd hx (List.not_mem_nil x)
    · have := h2 c hc
      rw [Char.isDigit] at this
      simp only [Bool.and_eq_true, decide_eq_true_eq] at this
      exact ⟨this.1, this.2⟩
  · rintro ⟨h1, h2⟩
    refine ⟨?_, fun c hc => ?_⟩
    · simpa [List.isEmpty_iff] using h1
    · rcases h2 c hc with ⟨ha, hb⟩
      rw [Char.isDigit]
      simp only [Bool.and_eq_true, decide_eq_true_eq]
      exact ⟨ha, hb⟩

theorem foldl_digits_eq_ofDigits (cs : List Char) (a : Nat) :
    cs.foldl (fun a c => a * 10 + (c.toNat - 48)) a =
      a * 10 ^ cs.length + Nat.ofDigits 10 ((cs.map (fun c => c.toNat - 48)).reverse) := by
  induction cs generalizing a with
  | nil => simp [Nat.ofDigits]
  | cons c t ih =>
    simp only [List.foldl_cons, List.map_cons, List.reverse_cons, List.length_cons]
    rw [ih, Nat.ofDigits_append]
    simp only [Nat.ofDigits, List.length_reverse, List.length_map]
    push_cast
    ring

theorem parseNat_eq_specNumber (s : String) : parseNat s = specNumber s := by
  unfold parseNat specNumber
  rw [foldl_digits_eq_ofDigits]
  simp

theorem toNat_digitChar {d : Nat} (hd : d < 10) : (Char.ofNat (48 + d)).toNat = 48 + d := by
  interval_cases d <;> decide

theorem isDigit_digitChar {d : Nat} (hd : d < 10) : (Char.ofNat (48 + d)).isDigit = true := by
  interval_cases d <;> decide

theorem map_digit_roundtrip (ds : List Nat) (h : ∀ d ∈ ds, d < 10) :
    (ds.map (fun d => Char.ofNat (48 + d))).map (fun c => c.toNat - 48) = ds := by
  induction ds with
  | nil => rfl
  | cons d t ih =>
    simp only [List.map_cons, List.cons.injEq]
    constructor
    · rw [toNat_digitChar (h d (by simp))]; omega
    · exact ih (fun x hx => h x (by simp [hx]))

theorem isArrayIndex_numToString (n : Nat) : isArrayIndex (numToString n) = true := by
  by_cases h : n = 0
  · rw [h]; decide
  · unfold numToString
    rw [if_neg h]
    unfold isArrayIndex
    rw [Bool.and_eq_true, List.all_eq_true]
    constructor
    · have hne : Nat.digits 10 n ≠ [] := Nat.digits_ne_nil_iff_ne_zero.mpr h
      simp only [Bool.not_eq_true', List.isEmpty_eq_false_iff_exists_mem]
      rcases List.exists_mem_of_ne_nil _ hne with ⟨d, hdmem⟩
      exact ⟨Char.ofNat (48 + d), List.mem_map_of_mem _ (List.mem_reverse.mpr hdmem)⟩
    · intro c hc
      rcases List.mem_map.mp hc with ⟨d, hdmem, rfl⟩
      exact isDigit_digitChar (Nat.digits_lt_base (by norm_num) (List.mem_reverse.mp hdmem))

theorem parseNat_numToString (n : Nat) : parseNat (numToString n) = n := by
  by_cases h : n = 0
  · rw [h]; decide
  · unfold numToString parseNat
    rw [if_neg h]
    rw [foldl_digits_eq_ofDigits]
    rw [map_digit_roundtrip _ (fun d hdmem =>
      Nat.digits_lt_base (by norm_num) (List.mem_reverse.mp hdmem))]
    rw [List.reverse_reverse, Nat.ofDigits_digits]
    omega

theorem castSegment_str_numToString (n : Nat) :
    castSegment (.str (numToString n)) = .num n := by
  simp [castSegment, isArrayIndex_numToString, parseNat_numToString]

/-! ### Path canonicalization

Splitting a dotted path string into segments, as done by
`Model.prototype._splitPath`: `(path && path.split('.')) || []`.  A falsy
(empty) path gives `[]`; otherwise JavaScript's `split('.')` cuts at every
dot, keeping empty pieces. -/

/-- JavaScript `String.prototype.split('.')` on the character list: cut at
every dot, keeping empty pieces. -/
def splitOnDotAux : List Char → List Char → List String
  | [], acc => [String.mk acc.reverse]
  | c :: rest, acc =>
    if c = Char.ofNat 46 then String.mk acc.reverse :: splitOnDotAux rest []
    else splitOnDotAux rest (c :: acc)

/-- JavaScript `path.split('.')`. -/
def splitOnDot (s : String) : List String :=
  splitOnDotAux s.data []

/-- Embedding of `(path && path.split('.')) || []` as string-segment list. -/
def splitByDot (path : String) : List PathSegment :=
  (if path = "" then [] else splitOnDot path).map PathSegment.str

/-- Canonical segments of a dotted string path: split at dots, then coerce
digit-only segments with `castSegments`. -/
def canonOfString (path : String) : List PathSegment :=
  castSegments (splitByDot path)

/-- Canonical segments of a segment-array path against a root handle:
`_pathSegments` stringifies every appended segment (`segment.toString()`),
and the caller applies `castSegments`. -/
def canonOfArray (xs : List PathSegment) : List PathSegment :=
  castSegments (xs.map (fun x => PathSegment.str (segToString x)))

/-- The key stability fact behind idempotence: re-stringifying and re-casting
an already-cast segment changes nothing. -/
theorem castSegment_segToString_castSegment (z : PathSegment) :
    castSegment (.str (segToString (castSegment (.str (segToString z))))) =
      castSegment (.str (segToString z)) := by
  cases z with
  | num n =>
    have h1 : castSegment (.str (segToString (.num n))) = .num n :=
      castSegment_str_numToString n
    rw [h1]
    exact castSegment_str_numToString n
  | str s =>
    by_cases h : isArrayIndex s = true
    · have h1 : castSegment (.str (segToString (.str s))) = .num (parseNat s) := by
        show castSegment (.str s) = _
        simp only [castSegment]
        rw [if_pos h]
      rw [h1]
      exact castSegment_str_numToString (parseNat s)
    · have h1 : castSegment (.str (segToString (.str s))) = .str s := by
        show castSegment (.str s) = _
        simp only [castSegment]
        rw [if_neg h]
      rw [h1]
      exact h1

theorem castSegment_idem (z : PathSegment) :
    castSegment (castSegment z) = castSegment z := by
  cases z with
  | num n => rfl
  | str s =>
    by_cases h : isArrayIndex s <;> simp [castSegment, h]

/-! ### mayImpact

Embedding of `mayImpact(segments, eventSegments)`: the loop compares the
two paths index by index up to the shorter length and fails on the first
strict inequality (`!==`); running off either end yields `true`. -/

def mayImpact : List PathSegment → List PathSegment → Bool
  | segA :: restA, segB :: restB =>
    if segA = segB then mayImpact restA restB else false
  | _, _ => true

/-! ### Scoped-path methods of `lib/Model/paths.js`

A model handle carries `_at` (dotted-string form of its absolute path, with
the empty string standing for the falsy root value) and `_atSegments`
(string segment array form). -/

structure MModel where
  _at : String
  _atSegments : List String
deriving DecidableEq, Repr

/-- The root model: `_at` unset (falsy), no segments. -/
def rootModel : MModel := ⟨"", []⟩

/-- The subpath argument shapes accepted by `Model.prototype.path`. -/
inductive Subpath
  | null
  | str (s : String)
  | num (n : Nat)
  | model (m : MModel)

/-- Embedding of `Model.prototype.path(subpath)`:
`null`/`''` return `_at` (or `''` when unset); a string or number subpath is
appended to a truthy `_at` with a dot, or stringified on its own; a model
subpath delegates to that model's own `path()`. -/
def Model_path (m : MModel) : Subpath → String
  | .null => m._at
  | .str s =>
    if s = "" then m._at
    else if m._at = "" then s else m._at ++ "." ++ s
  | .num n =>
    if m._at = "" then numToString n else m._at ++ "." ++ numToString n
  | .model other => other._at

/-- Path argument shapes accepted by `Model.prototype.scope`. -/
inductive ScopePath
  | str (s : String)
  | arr (xs : List PathSegment)

/-- JavaScript `String.prototype.split()` with no separator: the whole
string as a single element. -/
def jsSplitNoSep (s : String) : List String := [s]

/-- Embedding of `Model.prototype._childFromSegments(pathSegments)`:
stores the segments and joins them with dots for `_at`. -/
def Model_childFromSegments (pathSegments : List String) : MModel :=
  ⟨String.intercalate "." pathSegments, pathSegments⟩

/-- Embedding of `Model.prototype.scope(path)` from `lib/Model/paths.js`:
an array argument is stringified per segment and handed to
`_childFromSegments`; a string argument is stored as `_at`, and
`_atSegments` is set to `path ? path.split() : []` — note the separator-less
`split()`, which wraps the whole string in a one-element array. -/
def Model_scope (_m : MModel) : ScopePath → MModel
  | .arr xs => Model_childFromSegments (xs.map segToString)
  | .str p => ⟨p, if p = "" then [] else jsSplitNoSep p⟩

/-- Embedding of `Model.prototype._splitPath()` with no argument: the
argument is neither array nor model, so this is
`(this.path() && this.path().split('.')) || []`. -/
def Model_splitPath (m : MModel) : List String :=
  if m._at = "" then [] else splitOnDot m._at

/-! ### JavaScript values

A heap-aware model of the values `util.js` copies and traverses.  Composite
values (Dates, arrays, plain objects) carry an address standing for their
object identity; `===` on composites is address equality, and a copy that
allocates (`new Date(...)`, `value.slice()`, `new object.constructor()`)
produces a node with a fresh address. -/

/-- A JavaScript number: NaN or a finite value. -/
inductive JsNum
  | nan
  | fin (q : Rat)
deriving DecidableEq, Repr

inductive JsVal
  | vundefined
  | vnull
  | vbool (b : Bool)
  | vnum (x : JsNum)
  | vstr (s : String)
  | vdate (addr : Nat) (time : Int)
  | varr (addr : Nat) (elems : List JsVal)
  | vobj (addr : Nat) (fields : List (String × JsVal))
deriving Repr

mutual

/-- Addresses of every composite object reachable inside a value. -/
def addrsOf : JsVal → List Nat
  | .vdate a _ => [a]
  | .varr a es => a :: addrsList es
  | .vobj a fs => a :: addrsFields fs
  | _ => []

def addrsList : List JsVal → List Nat
  | [] => []
  | v :: rest => addrsOf v ++ addrsList rest

def addrsFields : List (String × JsVal) → List Nat
  | [] => []
  | kv :: rest => addrsOf kv.2 ++ addrsFields rest

end

/-- A plain JSON-with-Dates value: `JsVal` with object identity erased.
Two `JsVal`s are deeply equal exactly when they erase to the same `PJson`
(Dates compare by time value). -/
inductive PJson
  | pundefined
  | pnull
  | pbool (b : Bool)
  | pnum (x : JsNum)
  | pstr (s : String)
  | pdate (time : Int)
  | parr (elems : List PJson)
  | pobj (fields : List (String × PJson))
deriving Repr

mutual

def erase : JsVal → PJson
  | .vundefined => .pundefined
  | .vnull => .pnull
  | .vbool b => .pbool b
  | .vnum x => .pnum x
  | .vstr s => .pstr s
  | .vdate _ t => .pdate t
  | .varr _ es => .parr (eraseList es)
  | .vobj _ fs => .pobj (eraseFields fs)

def eraseList : List JsVal → List PJson
  | [] => []
  | v :: rest => erase v :: eraseList rest

def eraseFields : List (String × JsVal) → List (String × PJson)
  | [] => []
  | kv :: rest => (kv.1, erase kv.2) :: eraseFields rest

end

/-- Every address inside `v` is below the allocation counter `n`. -/
def allAddrsBelow (v : JsVal) (n : Nat) : Prop :=
  ∀ a ∈ addrsOf v, a < n

/-- Embedding of `copy(value)` from util.js, with an allocation counter for
fresh addresses.  A Date is re-instantiated (`new Date(value)`); `null` is
returned as `null`; an array becomes `value.slice()` — a new array holding
the same element references; any other object goes through `copyObject`,
which makes a new object with the same own key-value pairs by reference;
all remaining (primitive) values are returned as-is. -/
def copy (n : Nat) (value : JsVal) : JsVal × Nat :=
  match value with
  | .vdate _ t => (.vdate n t, n + 1)
  | .vnull => (.vnull, n)
  | .varr _ elems => (.varr n elems, n + 1)
  | .vobj _ fields => (.vobj n fields, n + 1)
  | v => (v, n)

mutual

/-- Embedding of `deepCopy(value)` from util.js with an allocation counter:
a Date is re-instantiated with the same time; an array becomes a fresh
array of deep copies of its elements; any other object becomes a fresh
object whose own key-value pairs hold deep copies; primitives are returned
as-is. -/
def deepCopy (n : Nat) (value : JsVal) : JsVal × Nat :=
  match value with
  | .vdate _ t => (.vdate n t, n + 1)
  | .varr _ elems =>
    let r := deepCopyList (n + 1) elems
    (.varr n r.1, r.2)
  | .vobj _ fields =>
    let r := deepCopyFields (n + 1) fields
    (.vobj n r.1, r.2)
  | v => (v, n)

def deepCopyList (n : Nat) : List JsVal → List JsVal × Nat
  | [] => ([], n)
  | v :: rest =>
    let r1 := deepCopy n v
    let r2 := deepCopyList r1.2 rest
    (r1.1 :: r2.1, r2.2)

def deepCopyFields (n : Nat) : List (String × JsVal) → List (String × JsVal) × Nat
  | [] => ([], n)
  | kv :: rest =>
    let r1 := deepCopy n kv.2
    let r2 := deepCopyFields r1.2 rest
    ((kv.1, r1.1) :: r2.1, r2.2)

end

/-! ### Strict equality (`equal` / `equalsNaN`) -/

/-- JavaScript `===`: equal primitives value-wise — except that `NaN` is
unequal to everything including itself — and composites by reference
(address). -/
def strictEq : JsVal → JsVal → Bool
  | .vundefined, .vundefined => true
  | .vnull, .vnull => true
  | .vbool a, .vbool b => a = b
  | .vnum (.fin p), .vnum (.fin q) => p = q
  | .vstr a, .vstr b => a = b
  | .vdate a _, .vdate b _ => a = b
  | .varr a _, .varr b _ => a = b
  | .vobj a _, .vobj b _ => a = b
  | _, _ => false

/-- Embedding of `equalsNaN(x)`: `x !== x`, true exactly for NaN. -/
def equalsNaN (x : JsVal) : Bool :=
  !(strictEq x x)

/-- Embedding of `equal(a, b)`:
`(a === b) || (equalsNaN(a) && equalsNaN(b))`. -/
def equal (a b : JsVal) : Bool :=
  strictEq a b || (equalsNaN a && equalsNaN b)

/-! ### Property access and `lookup` -/

/-- Own-property lookup on a plain object: first binding for the key, or
`undefined` when there is none. -/
def findField : List (String × JsVal) → String → JsVal
  | [], _ => .vundefined
  | kv :: rest, key => if kv.1 = key then kv.2 else findField rest key

/-- Array property access `arr[key]`: the element for a canonical index
key in range, the length for `"length"`, `undefined` otherwise. -/
def arrGet (elems : List JsVal) (key : String) : JsVal :=
  if key = "length" then .vnum (.fin elems.length)
  else if isArrayIndex key ∧ numToString (parseNat key) = key then
    match elems.get? (parseNat key) with
    | some v => v
    | none => .vundefined
  else .vundefined

/-- String property access `s[key]`: one-character string for a canonical
index key in range, the length for `"length"`, `undefined` otherwise. -/
def strGet (s : String) (key : String) : JsVal :=
  if key = "length" then .vnum (.fin s.data.length)
  else if isArrayIndex key ∧ numToString (parseNat key) = key then
    match s.data.get? (parseNat key) with
    | some c => .vstr (String.mk [c])
    | none => .vundefined
  else .vundefined

/-- JavaScript property access `value[segment]` for a non-nullish receiver:
the segment is converted to a string property key; booleans, numbers and
Dates have no own data properties in this model. -/
def getProp (value : JsVal) (segment : PathSegment) : JsVal :=
  match value with
  | .vundefined => .vundefined
  | .vnull => .vundefined
  | .vbool _ => .vundefined
  | .vnum _ => .vundefined
  | .vstr s => strGet s (segToString segment)
  | .vdate _ _ => .vundefined
  | .varr _ elems => arrGet elems (segToString segment)
  | .vobj _ fields => findField fields (segToString segment)

/-- Property access with JavaScript's failure behaviour made explicit:
reading a property of `null` or `undefined` throws (`none`). -/
def getPropE (value : JsVal) (segment : PathSegment) : Option JsVal :=
  match value with
  | .vnull => none
  | .vundefined => none
  | v => some (getProp v segment)

/-- The loop body of `lookup`: at each segment, if the current value is
nullish (`value == null`) return it as-is, otherwise descend through
`value[segments[i]]`. -/
def lookupLoop : List PathSegment → JsVal → JsVal
  | [], value => value
  | seg :: rest, value =>
    match value with
    | .vnull => .vnull
    | .vundefined => .vundefined
    | v => lookupLoop rest (getProp v seg)

/-- Embedding of `lookup(segments, value)` from util.js: a falsy (absent)
segments argument returns the value unchanged, otherwise the loop runs. -/
def lookup : Option (List PathSegment) → JsVal → JsVal
  | none, value => value
  | some segments, value => lookupLoop segments value

/-- `lookupLoop` with throwing property access: mirrors the source loop but
propagates a `none` from `getPropE`. -/
def lookupLoopE : List PathSegment → JsVal → Option JsVal
  | [], value => some value
  | seg :: rest, value =>
    match value with
    | .vnull => some .vnull
    | .vundefined => some .vundefined
    | v =>
      match getPropE v seg with
      | some v2 => lookupLoopE rest v2
      | none => none

/-- `lookup` with throwing property access. -/
def lookupE : Option (List PathSegment) → JsVal → Option JsVal
  | none, value => some value
  | some segments, value => lookupLoopE segments value

/-! ### asyncGroup

`asyncGroup(cb)` wraps an `AsyncGroup{cb, isDone, count}` and returns its
`add`.  Each completion function returned by `add` decrements `count`,
then: does nothing further if the group is done; fires `cb(err)` and
finishes the group on a truthy error; fires `cb()` and finishes the group
when no completions remain outstanding. -/

structure AsyncGroupState where
  isDone : Bool
  count : Int
deriving DecidableEq, Repr

/-- The state set up by `new AsyncGroup(cb)`. -/
def AsyncGroup_init : AsyncGroupState := ⟨false, 0⟩

/-- An externally observable step: `add()` being called, or one of the
completion functions returned by `add` being invoked with an optional
(truthy) error. -/
inductive AsyncEvent (E : Type)
  | add
  | complete (err : Option E)

/-- Embedding of the completion closure returned by `AsyncGroup.add`:
`self.count--`; return if done; on error mark done and fire `cb(err)`;
otherwise return while completions remain, else mark done and fire `cb()`.
The second component lists the `cb` invocations this step performs. -/
def completeStep {E : Type} (g : AsyncGroupState) (err : Option E) :
    AsyncGroupState × List (Option E) :=
  let g1 : AsyncGroupState := ⟨g.isDone, g.count - 1⟩
  if g1.isDone then (g1, [])
  else
    match err with
    | some e => (⟨true, g1.count⟩, [some e])
    | none =>
      if g1.count > 0 then (g1, [])
      else (⟨true, g1.count⟩, [none])

/-- Running a sequence of events against a group state, collecting every
`cb` invocation in order. -/
def runFrom {E : Type} : AsyncGroupState → List (AsyncEvent E) → AsyncGroupState × List (Option E)
  | g, [] => (g, [])
  | g, .add :: rest => runFrom ⟨g.isDone, g.count + 1⟩ rest
  | g, .complete err :: rest =>
    let r1 := completeStep g err
    let r2 := runFrom r1.1 rest
    (r2.1, r1.2 ++ r2.2)

/-- The `cb` invocations a fresh `asyncGroup(cb)` performs over a sequence
of events. -/
def runAsyncGroup {E : Type} (events : List (AsyncEvent E)) : List (Option E) :=
  (runFrom AsyncGroup_init events).2

/-- The claimed behaviour, stated directly: scanning the events with a
count of added-but-unfinished completions, the callback fires with the
first reported error, or with no error once the outstanding count reaches
zero, and nothing after that has any effect. -/
def specRun {E : Type} : Int → List (AsyncEvent E) → List (Option E)
  | _, [] => []
  | c, .add :: rest => specRun (c + 1) rest
  | _, .complete (some e) :: _ => [some e]
  | c, .complete none :: rest =>
    if c - 1 > 0 then specRun (c - 1) rest else [none]

instance (v : JsVal) (n : Nat) : Decidable (allAddrsBelow v n) := by
  unfold allAddrsBelow; infer_instance

/-! ## Claim theorems -/

/-- C1: canonicalization coerces exactly the digit-only string segments to
numbers: every string segment matching `[0-9]+` is replaced by its numeric
value `Number(s)`, every other segment (non-digit strings and numbers) is
left unchanged, and the length and order of the list are preserved. -/
theorem castSegments_digit_coercion :
    ∀ (xs : List PathSegment),
      (castSegments xs).length = xs.length ∧
      (∀ i s, xs.get? i = some (.str s) → jsDigitString s →
        (castSegments xs).get? i = some (.num (specNumber s))) ∧
      (∀ i s, xs.get? i = some (.str s) → ¬ jsDigitString s →
        (castSegments xs).get? i = some (.str s)) ∧
      (∀ i k, xs.get? i = some (.num k) → (castSegments xs).get? i = some (.num k)) := by
  intro xs
  refine ⟨by simp [castSegments], ?_, ?_, ?_⟩
  · intro i s hget hdigit
    rw [castSegments, List.get?_map, hget]
    have hidx : isArrayIndex s = true := (isArrayIndex_iff s).mpr hdigit
    simp [castSegment, hidx, parseNat_eq_specNumber]
  · intro i s hget hdigit
    rw [castSegments, List.get?_map, hget]
    have hidx : ¬ isArrayIndex s = true := fun hc => hdigit ((isArrayIndex_iff s).mp hc)
    simp [castSegment, hidx]
  · intro i k hget
    rw [castSegments, List.get?_map, hget]
    rfl

theorem castSegments_digit_coercion_witness :
    (castSegments [.str "12", .str "ab", .num 3]).get? 0 = some (.num (specNumber "12")) ∧
    (castSegments [.str "12", .str "ab", .num 3]).get? 1 = some (.str "ab") ∧
    (castSegments [.str "12", .str "ab", .num 3]).get? 2 = some (.num 3) :=
  ⟨(castSegments_digit_coercion [.str "12", .str "ab", .num 3]).2.1 0 "12" rfl (by decide),
   (castSegments_digit_coercion [.str "12", .str "ab", .num 3]).2.2.1 1 "ab" rfl (by decide),
   (castSegments_digit_coercion [.str "12", .str "ab", .num 3]).2.2.2 2 3 rfl⟩

/-- C2: `mayImpact(listener, event)` returns true if and only if one of the
two segment sequences is an element-wise prefix of the other (equality
included). -/
theorem mayImpact_iff_ancestor :
    ∀ (segments eventSegments : List PathSegment),
      mayImpact segments eventSegments = true ↔
        ((∃ rest, segments ++ rest = eventSegments) ∨
         (∃ rest, eventSegments ++ rest = segments)) := by
  intro segments
  induction segments with
  | nil =>
    intro es
    constructor
    · intro _
      exact Or.inl ⟨es, rfl⟩
    · intro _
      rfl
  | cons a as ih =>
    intro es
    cases es with
    | nil =>
      constructor
      · intro _
        exact Or.inr ⟨a :: as, rfl⟩
      · intro _
        rfl
    | cons b bs =>
      have hstep : mayImpact (a :: as) (b :: bs) =
          if a = b then mayImpact as bs else false := rfl
      constructor
      · intro h
        rw [hstep] at h
        by_cases hab : a = b
        · rw [if_pos hab] at h
          rcases (ih bs).mp h with ⟨rest, hr⟩ | ⟨rest, hr⟩
          · exact Or.inl ⟨rest, by rw [List.cons_append, hab, hr]⟩
          · exact Or.inr ⟨rest, by rw [List.cons_append, hab, hr]⟩
        · rw [if_neg hab] at h
          exact absurd h (by simp)
      · intro h
        rw [hstep]
        rcases h with ⟨rest, hr⟩ | ⟨rest, hr⟩
        · rw [List.cons_append] at hr
          injection hr with h1 h2
          rw [if_pos h1]
          exact (ih bs).mpr (Or.inl ⟨rest, h2⟩)
        · rw [List.cons_append] at hr
          injection hr with h1 h2
          rw [if_pos h1.symm]
          exact (ih bs).mpr (Or.inr ⟨rest, h2⟩)

theorem canonOfArray_eq (xs : List PathSegment) :
    canonOfArray xs = xs.map (fun z => castSegment (.str (segToString z))) := by
  unfold canonOfArray castSegments
  rw [List.map_map]
  rfl

/-- C4: path canonicalization is idempotent: `castSegments` is idempotent
on every segment array, re-canonicalizing an already-canonicalized segment
array changes nothing, and canonicalizing the canonical result of a dotted
string changes nothing. -/
theorem canon_idempotent :
    (∀ xs : List PathSegment, castSegments (castSegments xs) = castSegments xs) ∧
    (∀ xs : List PathSegment, canonOfArray (canonOfArray xs) = canonOfArray xs) ∧
    (∀ s : String, canonOfArray (canonOfString s) = canonOfString s) := by
  refine ⟨?_, ?_, ?_⟩
  · intro xs
    unfold castSegments
    rw [List.map_map]
    apply List.map_congr_left
    intro z _
    simp only [Function.comp_apply]
    exact castSegment_idem z
  · intro xs
    rw [canonOfArray_eq, canonOfArray_eq, List.map_map]
    apply List.map_congr_left
    intro z _
    simp only [Function.comp_apply]
    exact castSegment_segToString_castSegment z
  · intro s
    rw [canonOfArray_eq]
    unfold canonOfString castSegments splitByDot
    simp only [List.map_map]
    apply List.map_congr_left
    intro x _
    simp only [Function.comp_apply]
    exact castSegment_segToString_castSegment (.str x)

/-- C5: `path(subpath)` joins by plain concatenation: a null or empty-string
argument returns the base path itself; a non-empty string or a number
subpath is appended to a non-empty base with a dot in between, and is
returned in string form on its own when the base is empty. -/
theorem path_join_characterization :
    ∀ (m : MModel) (s : String) (k : Nat),
      Model_path m .null = m._at ∧
      Model_path m (.str "") = m._at ∧
      (s ≠ "" → Model_path m (.str s) =
        (if m._at = "" then s else m._at ++ "." ++ s)) ∧
      Model_path m (.num k) =
        (if m._at = "" then numToString k else m._at ++ "." ++ numToString k) := by
  intro m s k
  refine ⟨rfl, by simp [Model_path], fun hs => by simp [Model_path, hs], rfl⟩

theorem path_join_witness :
    Model_path ⟨"a", ["a"]⟩ (.str "b.c") = "a.b.c" := by
  have h := (path_join_characterization ⟨"a", ["a"]⟩ "b.c" 0).2.2.1 (by decide)
  rw [if_neg (by decide)] at h
  rw [h]
  decide

/-- C3 (code evaluation at the failing input): `scope('a.b')` on the root
model stores `_atSegments = ['a.b']` because line 85 of
`lib/Model/paths.js` calls `path.split()` without a separator, which wraps
the whole string instead of splitting at dots; `'a.b'.split('.')` — what
the very same model's `_splitPath()` computes from `_at` — is `['a','b']`,
so the stored segment array disagrees with the path split by `.`. -/
theorem scope_dotted_string_bug :
    (Model_scope rootModel (.str "a.b"))._atSegments = ["a.b"] ∧
    splitOnDot "a.b" = ["a", "b"] ∧
    (Model_scope rootModel (.str "a.b"))._atSegments ≠ splitOnDot "a.b" ∧
    Model_splitPath (Model_scope rootModel (.str "a.b")) = ["a", "b"] := by
  refine ⟨by decide, by decide, by decide, by decide⟩

/-! Allocation-counter lemmas for `deepCopy`. -/

mutual

theorem le_deepCopy_counter : ∀ (n : Nat) (v : JsVal), n ≤ (deepCopy n v).2
  | _, .vundefined => le_refl _
  | _, .vnull => le_refl _
  | _, .vbool _ => le_refl _
  | _, .vnum _ => le_refl _
  | _, .vstr _ => le_refl _
  | n, .vdate _ _ => Nat.le_succ n
  | n, .varr _ es => by
    show n ≤ (deepCopyList (n + 1) es).2
    have h := le_deepCopyList_counter (n + 1) es
    omega
  | n, .vobj _ fs => by
    show n ≤ (deepCopyFields (n + 1) fs).2
    have h := le_deepCopyFields_counter (n + 1) fs
    omega

theorem le_deepCopyList_counter : ∀ (n : Nat) (es : List JsVal), n ≤ (deepCopyList n es).2
  | _, [] => le_refl _
  | n, v :: rest => by
    show n ≤ (deepCopyList (deepCopy n v).2 rest).2
    have h1 := le_deepCopy_counter n v
    have h2 := le_deepCopyList_counter (deepCopy n v).2 rest
    omega

theorem le_deepCopyFields_counter : ∀ (n : Nat) (fs : List (String × JsVal)), n ≤ (deepCopyFields n fs).2
  | _, [] => le_refl _
  | n, kv :: rest => by
    show n ≤ (deepCopyFields (deepCopy n kv.2).2 rest).2
    have h1 := le_deepCopy_counter n kv.2
    have h2 := le_deepCopyFields_counter (deepCopy n kv.2).2 rest
    omega

end

mutual

theorem addrs_deepCopy_ge : ∀ (n : Nat) (v : JsVal) (a : Nat),
    a ∈ addrsOf (deepCopy n v).1 → n ≤ a
  | _, .vundefined, a, h => absurd h (List.not_mem_nil a)
  | _, .vnull, a, h => absurd h (List.not_mem_nil a)
  | _, .vbool _, a, h => absurd h (List.not_mem_nil a)
  | _, .vnum _, a, h => absurd h (List.not_mem_nil a)
  | _, .vstr _, a, h => absurd h (List.not_mem_nil a)
  | n, .vdate _ _, a, h => by
    have ha : a ∈ [n] := h
    have : a = n := List.mem_singleton.mp ha
    omega
  | n, .varr _ es, a, h => by
    have ha : a ∈ n :: addrsList (deepCopyList (n + 1) es).1 := h
    rcases List.mem_cons.mp ha with h1 | h1
    · omega
    · have := addrsList_deepCopyList_ge (n + 1) es a h1
      omega
  | n, .vobj _ fs, a, h => by
    have ha : a ∈ n :: addrsFields (deepCopyFields (n + 1) fs).1 := h
    rcases List.mem_cons.mp ha with h1 | h1
    · omega
    · have := addrsFields_deepCopyFields_ge (n + 1) fs a h1
      omega

theorem addrsList_deepCopyList_ge : ∀ (n : Nat) (es : List JsVal) (a : Nat),
    a ∈ addrsList (deepCopyList n es).1 → n ≤ a
  | _, [], a, h => absurd h (List.not_mem_nil a)
  | n, v :: rest, a, h => by
    have ha : a ∈ addrsOf (deepCopy n v).1 ++
        addrsList (deepCopyList (deepCopy n v).2 rest).1 := h
    rcases List.mem_append.mp ha with h1 | h1
    · exact addrs_deepCopy_ge n v a h1
    · have hge := addrsList_deepCopyList_ge (deepCopy n v).2 rest a h1
      have hle := le_deepCopy_counter n v
      omega

theorem addrsFields_deepCopyFields_ge : ∀ (n : Nat) (fs : List (String × JsVal)) (a : Nat),
    a ∈ addrsFields (deepCopyFields n fs).1 → n ≤ a
  | _, [], a, h => absurd h (List.not_mem_nil a)
  | n, kv :: rest, a, h => by
    have ha : a ∈ addrsOf (deepCopy n kv.2).1 ++
        addrsFields (deepCopyFields (deepCopy n kv.2).2 rest).1 := h
    rcases List.mem_append.mp ha with h1 | h1
    · exact addrs_deepCopy_ge n kv.2 a h1
    · have hge := addrsFields_deepCopyFields_ge (deepCopy n kv.2).2 rest a h1
      have hle := le_deepCopy_counter n kv.2
      omega

end

mutual

theorem erase_deepCopy : ∀ (n : Nat) (v : JsVal), erase (deepCopy n v).1 = erase v
  | _, .vundefined => rfl
  | _, .vnull => rfl
  | _, .vbool _ => rfl
  | _, .vnum _ => rfl
  | _, .vstr _ => rfl
  | _, .vdate _ _ => rfl
  | n, .varr _ es => by
    show PJson.parr (eraseList (deepCopyList (n + 1) es).1) = PJson.parr (eraseList es)
    rw [eraseList_deepCopyList (n + 1) es]
  | n, .vobj _ fs => by
    show PJson.pobj (eraseFields (deepCopyFields (n + 1) fs).1) = PJson.pobj (eraseFields fs)
    rw [eraseFields_deepCopyFields (n + 1) fs]

theorem eraseList_deepCopyList : ∀ (n : Nat) (es : List JsVal),
    eraseList (deepCopyList n es).1 = eraseList es
  | _, [] => rfl
  | n, v :: rest => by
    show erase (deepCopy n v).1 :: eraseList (deepCopyList (deepCopy n v).2 rest).1 =
      erase v :: eraseList rest
    rw [erase_deepCopy n v, eraseList_deepCopyList (deepCopy n v).2 rest]

theorem eraseFields_deepCopyFields : ∀ (n : Nat) (fs : List (String × JsVal)),
    eraseFields (deepCopyFields n fs).1 = eraseFields fs
  | _, [] => rfl
  | n, kv :: rest => by
    show (kv.1, erase (deepCopy n kv.2).1) ::
        eraseFields (deepCopyFields (deepCopy n kv.2).2 rest).1 =
      (kv.1, erase kv.2) :: eraseFields rest
    rw [erase_deepCopy n kv.2, eraseFields_deepCopyFields (deepCopy n kv.2).2 rest]

end

/-- C6: deep copy is a full recursive structural copy: the result erases to
the same plain JSON-with-Dates value as the input (deep equality, Dates
re-instantiated with the same time, primitives as-is), and — when copying
with a fresh allocation counter — no composite object reachable in the
result is the same reference as any object reachable in the input. -/
theorem deepCopy_deep_equal_and_fresh :
    ∀ (v : JsVal) (n : Nat),
      erase (deepCopy n v).1 = erase v ∧
      (allAddrsBelow v n → ∀ a ∈ addrsOf (deepCopy n v).1, a ∉ addrsOf v) := by
  intro v n
  refine ⟨erase_deepCopy n v, fun hbelow a ha hmem => ?_⟩
  have h1 := addrs_deepCopy_ge n v a ha
  have h2 := hbelow a hmem
  omega

theorem deepCopy_witness :
    erase (deepCopy 3 (.varr 0 [.vdate 1 7, .vobj 2 [("k", .vnum (.fin 1))]])).1
        = erase (.varr 0 [.vdate 1 7, .vobj 2 [("k", .vnum (.fin 1))]]) ∧
    ∀ a ∈ addrsOf (deepCopy 3 (.varr 0 [.vdate 1 7, .vobj 2 [("k", .vnum (.fin 1))]])).1,
      a ∉ addrsOf (.varr 0 [.vdate 1 7, .vobj 2 [("k", .vnum (.fin 1))]]) :=
  ⟨(deepCopy_deep_equal_and_fresh (.varr 0 [.vdate 1 7, .vobj 2 [("k", .vnum (.fin 1))]]) 3).1,
   (deepCopy_deep_equal_and_fresh (.varr 0 [.vdate 1 7, .vobj 2 [("k", .vnum (.fin 1))]]) 3).2
     (by decide)⟩

/-- C7: shallow copy keeps immediate children by reference: `copy` returns
a fresh array with the identical element list for an array, a fresh object
with the identical own key-value bindings for a plain object, a fresh Date
with the same time value for a Date, and the value itself for `null` and
primitives; the address of the fresh composite is new (not an address of
any object reachable in the input). -/
theorem copy_shallow_characterization :
    ∀ (n addr : Nat) (es : List JsVal) (fs : List (String × JsVal)) (t : Int)
      (b : Bool) (x : JsNum) (s : String),
      copy n (.varr addr es) = (.varr n es, n + 1) ∧
      copy n (.vobj addr fs) = (.vobj n fs, n + 1) ∧
      copy n (.vdate addr t) = (.vdate n t, n + 1) ∧
      copy n .vnull = (.vnull, n) ∧
      copy n .vundefined = (.vundefined, n) ∧
      copy n (.vbool b) = (.vbool b, n) ∧
      copy n (.vnum x) = (.vnum x, n) ∧
      copy n (.vstr s) = (.vstr s, n) ∧
      (allAddrsBelow (.varr addr es) n → n ∉ addrsOf (.varr addr es)) ∧
      (allAddrsBelow (.vobj addr fs) n → n ∉ addrsOf (.vobj addr fs)) ∧
      (allAddrsBelow (.vdate addr t) n → n ∉ addrsOf (.vdate addr t)) := by
  intro n addr es fs t b x s
  refine ⟨rfl, rfl, rfl, rfl, rfl, rfl, rfl, rfl, ?_, ?_, ?_⟩
  all_goals
    intro hbelow hmem
    have := hbelow n hmem
    omega

theorem copy_shallow_witness :
    copy 5 (.varr 0 [.vnum (.fin 2), .vdate 1 9]) = (.varr 5 [.vnum (.fin 2), .vdate 1 9], 6) ∧
    (5 : Nat) ∉ addrsOf (.varr 0 [.vnum (.fin 2), .vdate 1 9]) :=
  ⟨(copy_shallow_characterization 5 0 [.vnum (.fin 2), .vdate 1 9] [] 0 false .nan "").1,
   (copy_shallow_characterization 5 0 [.vnum (.fin 2), .vdate 1 9] [] 0 false .nan "").2.2.2.2.2.2.2.2.1
     (by decide)⟩

theorem equalsNaN_iff (x : JsVal) : equalsNaN x = true ↔ x = .vnum .nan := by
  cases x with
  | vnum y =>
    cases y with
    | nan => simp [equalsNaN, strictEq]
    | fin q => simp [equalsNaN, strictEq]
  | vundefined => simp [equalsNaN, strictEq]
  | vnull => simp [equalsNaN, strictEq]
  | vbool b => simp [equalsNaN, strictEq]
  | vstr s => simp [equalsNaN, strictEq]
  | vdate a t => simp [equalsNaN, strictEq]
  | varr a es => simp [equalsNaN, strictEq]
  | vobj a fs => simp [equalsNaN, strictEq]

/-- C8: the strict-equality predicate of the diff mutations holds exactly
on `===`-equal values (identical primitive value or identical reference)
or when both sides are NaN. -/
theorem equal_iff_strictEq_or_both_nan :
    ∀ (a b : JsVal),
      equal a b = true ↔ (strictEq a b = true ∨ (a = .vnum .nan ∧ b = .vnum .nan)) := by
  intro a b
  unfold equal
  rw [Bool.or_eq_true, Bool.and_eq_true]
  constructor
  · rintro (h | ⟨h1, h2⟩)
    · exact Or.inl h
    · exact Or.inr ⟨(equalsNaN_iff a).mp h1, (equalsNaN_iff b).mp h2⟩
  · rintro (h | ⟨h1, h2⟩)
    · exact Or.inl h
    · exact Or.inr ⟨(equalsNaN_iff a).mpr h1, (equalsNaN_iff b).mpr h2⟩

/-- C9: `lookup` is total and stops at missing intermediates: the version
with JavaScript's throwing property access always returns (never throws)
and agrees with `lookup`; an absent segments argument returns the starting
value unchanged; and a traversal that reaches `null` or `undefined` with
segments remaining returns that nullish value itself. -/
theorem lookup_total_and_nullish_stop :
    ∀ (o : Option (List PathSegment)) (v : JsVal) (seg : PathSegment)
      (rest : List PathSegment),
      lookupE o v = some (lookup o v) ∧
      lookup none v = v ∧
      lookup (some (seg :: rest)) .vnull = .vnull ∧
      lookup (some (seg :: rest)) .vundefined = .vundefined := by
  intro o v seg rest
  refine ⟨?_, rfl, rfl, rfl⟩
  cases o with
  | none => rfl
  | some segs =>
    show lookupLoopE segs v = some (lookupLoop segs v)
    induction segs generalizing v with
    | nil => rfl
    | cons s tl ih =>
      cases v with
      | vnull => rfl
      | vundefined => rfl
      | vbool b => exact ih (getProp (.vbool b) s)
      | vnum x => exact ih (getProp (.vnum x) s)
      | vstr str => exact ih (getProp (.vstr str) s)
      | vdate a t => exact ih (getProp (.vdate a t) s)
      | varr a es => exact ih (getProp (.varr a es) s)
      | vobj a fs => exact ih (getProp (.vobj a fs) s)

/-! Lemmas for the async-group refinement. -/

theorem runFrom_done {E : Type} : ∀ (events : List (AsyncEvent E)) (c : Int),
    (runFrom ⟨true, c⟩ events).2 = ([] : List (Option E))
  | [], _ => rfl
  | .add :: rest, c => runFrom_done rest (c + 1)
  | .complete err :: rest, c => by
    show (completeStep (⟨true, c⟩ : AsyncGroupState) err).2 ++
        (runFrom (completeStep (⟨true, c⟩ : AsyncGroupState) err).1 rest).2 = []
    have h : completeStep (⟨true, c⟩ : AsyncGroupState) err = (⟨true, c - 1⟩, []) := rfl
    rw [h, List.nil_append]
    exact runFrom_done rest (c - 1)

theorem runFrom_spec {E : Type} : ∀ (events : List (AsyncEvent E)) (c : Int),
    (runFrom ⟨false, c⟩ events).2 = specRun c events
  | [], _ => rfl
  | .add :: rest, c => runFrom_spec rest (c + 1)
  | .complete (some e) :: rest, c => by
    show (completeStep (⟨false, c⟩ : AsyncGroupState) (some e)).2 ++
        (runFrom (completeStep (⟨false, c⟩ : AsyncGroupState) (some e)).1 rest).2 = [some e]
    have h : completeStep (⟨false, c⟩ : AsyncGroupState) (some e) = (⟨true, c - 1⟩, [some e]) := rfl
    rw [h, runFrom_done rest (c - 1), List.append_nil]
  | .complete none :: rest, c => by
    show (completeStep (⟨false, c⟩ : AsyncGroupState) none).2 ++
        (runFrom (completeStep (⟨false, c⟩ : AsyncGroupState) none).1 rest).2 =
      specRun c (.complete none :: rest)
    have hs : specRun (E := E) c (.complete none :: rest) =
        if c - 1 > 0 then specRun (c - 1) rest else [none] := rfl
    rw [hs]
    by_cases hc : c - 1 > 0
    · have h : completeStep (E := E) (⟨false, c⟩ : AsyncGroupState) none = (⟨false, c - 1⟩, []) := by
        unfold completeStep
        simp [hc]
      rw [h, List.nil_append, if_pos hc]
      exact runFrom_spec rest (c - 1)
    · have h : completeStep (E := E) (⟨false, c⟩ : AsyncGroupState) none = (⟨true, c - 1⟩, [none]) := by
        unfold completeStep
        simp [hc]
      rw [h, runFrom_done rest (c - 1), if_neg hc, List.append_nil]

theorem specRun_length_le_one {E : Type} : ∀ (c : Int) (events : List (AsyncEvent E)),
    (specRun c events).length ≤ 1
  | _, [] => by simp [specRun]
  | c, .add :: rest => specRun_length_le_one (c + 1) rest
  | _, .complete (some _) :: _ => by simp [specRun]
  | c, .complete none :: rest => by
    show (if c - 1 > 0 then specRun (c - 1) rest else [none]).length ≤ 1
    by_cases hc : c - 1 > 0
    · rw [if_pos hc]
      exact specRun_length_le_one (c - 1) rest
    · rw [if_neg hc]
      simp

/-- C10: the completion callback of an `asyncGroup` fires at most once: the
emitted callback invocations of a fresh group over any event sequence are
exactly the single first trigger — the first completion reporting an error,
or the first errorless completion at which the count of added-but-unfinished
completions reaches zero — and once the group is done (the callback has
fired), further completions emit nothing. -/
theorem asyncGroup_callback_once :
    ∀ (E : Type) (events : List (AsyncEvent E)),
      runAsyncGroup events = specRun 0 events ∧
      (runAsyncGroup events).length ≤ 1 ∧
      (∀ (c : Int) (more : List (AsyncEvent E)), (runFrom ⟨true, c⟩ more).2 = []) := by
  intro E events
  refine ⟨runFrom_spec events 0, ?_, fun c more => runFrom_done more c⟩
  rw [show runAsyncGroup events = (runFrom (⟨false, 0⟩ : AsyncGroupState) events).2 from rfl,
    runFrom_spec events 0]
  exact specRun_length_le_one 0 events

end Racer
